import Mathlib

/-!
Verification of `char2fonts` (src/char2fonts.py), a script that reports
which font files map a given Unicode character to a glyph.

Shallow embedding conventions:
* A Python `str` is a list of Unicode code points (`List Nat`); Python `ord`
  is partial on strings, modelled with `Except Unit`.
* A parsed `TTFont` is the `Font` structure: its `cmap` table is an optional
  list of character-map subtables, its `name` table an optional list of
  naming records.  A cmap subtable's mapping is an association list from
  code point to glyph identifier.  `NamingRecord.text` is the result of
  `record.toUnicode()`: `none` models a decoding error being raised.
* `TTFont(path)` (the fontTools parse, including every I/O or parse error it
  may raise) is modelled by an abstract filesystem `fs : K → Option Font`:
  `none` means the constructor raises for that path.
* `functools.lru_cache(maxsize=512)` is modelled explicitly: a cache state is
  an association list in most-recently-used-first order plus a log of the
  paths on which the underlying parse actually ran (the disk reads).
-/

namespace Char2Fonts

/-- A character-mapping (cmap) subtable of a font: platform and encoding
identifiers plus the codepoint-to-glyph-identifier mapping
(fontTools exposes it as the dict `cmap.cmap`). -/
structure CmapSubtable where
  platformID : Nat
  platEncID : Nat
  cmap : List (Nat × Nat)
deriving DecidableEq, Repr

/-- Model of fontTools `CmapSubtable.isUnicode`:
`platformID == 0 or (platformID == 3 and platEncID in [0, 1, 10])`. -/
def CmapSubtable.isUnicode (t : CmapSubtable) : Bool :=
  t.platformID == 0 || (t.platformID == 3 && (t.platEncID == 0 || t.platEncID == 1 || t.platEncID == 10))

/-- A record of the naming table.  `text` models `record.toUnicode()`:
`some s` when decoding yields `s`, `none` when decoding raises. -/
structure NamingRecord where
  nameID : Nat
  platformID : Nat
  platEncID : Nat
  text : Option String
deriving DecidableEq, Repr

/-- A successfully parsed font (`TTFont`): the two tables the program
consults.  `cmap = none` models `"cmap" not in font`, and similarly for
`name`; a present table carries its list of subtables / records. -/
structure Font where
  cmap : Option (List CmapSubtable)
  name : Option (List NamingRecord)
deriving DecidableEq, Repr

/-- Python `ord` on a string: the code point of a one-character string,
an exception (`TypeError`) otherwise. -/
def pyOrd (s : List Nat) : Except Unit Nat :=
  match s with
  | [c] => .ok c
  | _ => .error ()

/-- Membership test `ord(unicode_char) in cmap.cmap` for one subtable:
the codepoint occurs as a key of the mapping. -/
def cmapHasCode (t : CmapSubtable) (c : Nat) : Bool :=
  t.cmap.any (fun p => p.1 == c)

/-- The loop of `char_in_font` over the subtable list:
`for cmap in font["cmap"].tables: if cmap.isUnicode(): if ord(unicode_char) in cmap.cmap: return True`,
falling through to `False`.  `ord` is evaluated only when a Unicode
subtable is reached, and an invalid string raises there. -/
def charInFontTables (uc : List Nat) : List CmapSubtable → Except Unit Bool
  | [] => .ok false
  | t :: ts =>
    if t.isUnicode then
      match pyOrd uc with
      | .error e => .error e
      | .ok c => if cmapHasCode t c then .ok true else charInFontTables uc ts
    else charInFontTables uc ts

/-- Embedding of `char_in_font(unicode_char, font)`:
`if "cmap" not in font: return False`, then the subtable loop. -/
def char_in_font (uc : List Nat) (f : Font) : Except Unit Bool :=
  match f.cmap with
  | none => .ok false
  | some ts => charInFontTables uc ts

/-- The pure coverage value for a genuine single character: some subtable is
Unicode-capable and contains the codepoint as a key. -/
def supportsB (f : Font) (c : Nat) : Bool :=
  (f.cmap.getD []).any (fun t => t.isUnicode && cmapHasCode t c)

/-- The naming-record filter of `get_font_name`:
`record.nameID in (1, 4) and record.platformID == 3 and record.platEncID == 1`. -/
def matchNameRecord (r : NamingRecord) : Bool :=
  (r.nameID == 1 || r.nameID == 4) && r.platformID == 3 && r.platEncID == 1

/-- The loop of `get_font_name` over the naming records: the first matching
record is decoded; a decoding exception is caught by the surrounding
`except` and yields the placeholder. -/
def getNameFromRecords : List NamingRecord → String
  | [] => "Unknown font"
  | r :: rs =>
    if matchNameRecord r then
      match r.text with
      | some s => s
      | none => "Unknown font"
    else getNameFromRecords rs

/-- Embedding of `get_font_name(font)`. -/
def get_font_name (f : Font) : String :=
  match f.name with
  | none => "Unknown font"
  | some rs => getNameFromRecords rs

/-- State of the memoizing loader: the `functools.lru_cache(maxsize=512)`
contents as an association list in most-recently-used-first order, and the
log of paths on which the underlying parse ran (each entry one disk read). -/
structure CacheState (K : Type) where
  cache : List (K × Option Font)
  readLog : List K
deriving Repr

/-- Association-list lookup used by the cache model. -/
def alookup {K : Type} [DecidableEq K] (k : K) : List (K × Option Font) → Option (Option Font)
  | [] => none
  | p :: ps => if p.1 = k then some p.2 else alookup k ps

/-- Embedding of `load_font(fontpath)` with its `@lru_cache(maxsize=512)`.
A hit returns the cached value and moves the entry to most-recent without
touching the disk; a miss runs the parse (`TTFont(fontpath)` with every
exception caught, modelled by `fs`), logs the read, stores the result —
success or `None` alike — as most-recent and evicts the least-recently-used
entry when the cache would exceed 512 entries. -/
def load_font {K : Type} [DecidableEq K] (fs : K → Option Font) (s : CacheState K) (k : K) :
    Option Font × CacheState K :=
  match alookup k s.cache with
  | some v => (v, ⟨(k, v) :: s.cache.eraseP (fun p => decide (p.1 = k)), s.readLog⟩)
  | none =>
    let v := fs k
    (v, ⟨((k, v) :: s.cache).take 512, s.readLog ++ [k]⟩)

/-- The empty loader state at process start. -/
def initState (K : Type) : CacheState K := ⟨[], []⟩

/-- Folding a sequence of `load_font` calls over a list of paths, keeping
only the evolving cache state. -/
def loadSeq {K : Type} [DecidableEq K] (fs : K → Option Font) : List K → CacheState K → CacheState K
  | [], s => s
  | k :: ks, s => loadSeq fs ks (load_font fs s k).2

theorem loadSeq_nil {K : Type} [DecidableEq K] (fs : K → Option Font) (s : CacheState K) :
    loadSeq fs [] s = s := rfl

theorem loadSeq_cons {K : Type} [DecidableEq K] (fs : K → Option Font)
    (k : K) (ks : List K) (s : CacheState K) :
    loadSeq fs (k :: ks) s = loadSeq fs ks (load_font fs s k).2 := rfl

/-- Every cache entry records exactly the parse result of its path: the
invariant every reachable loader state satisfies (the cache is only ever
filled from `fs`). -/
def CacheConsistent {K : Type} (fs : K → Option Font) (s : CacheState K) : Prop :=
  ∀ p ∈ s.cache, p.2 = fs p.1

theorem alookup_eq_none_iff {K : Type} [DecidableEq K] (k : K) (l : List (K × Option Font)) :
    alookup k l = none ↔ ¬ k ∈ l.map Prod.fst := by
  induction l with
  | nil => simp [alookup]
  | cons p ps ih =>
    by_cases h : p.1 = k
    · simp [alookup, h]
    · rw [show alookup k (p :: ps) = alookup k ps from by simp [alookup, h], ih]
      simp only [List.map_cons, List.mem_cons]
      constructor
      · intro hn hk
        rcases hk with hk | hk
        · exact h hk.symm
        · exact hn hk
      · intro hn hk
        exact hn (Or.inr hk)

theorem alookup_mem {K : Type} [DecidableEq K] {k : K} {l : List (K × Option Font)}
    {v : Option Font} (h : alookup k l = some v) : (k, v) ∈ l := by
  induction l with
  | nil => simp [alookup] at h
  | cons p ps ih =>
    by_cases hp : p.1 = k
    · have heq : alookup k (p :: ps) = some p.2 := by simp [alookup, hp]
      rw [heq] at h
      injection h with h2
      subst h2
      subst hp
      cases p
      exact List.mem_cons_self _ _
    · have heq : alookup k (p :: ps) = alookup k ps := by simp [alookup, hp]
      rw [heq] at h
      exact List.mem_cons_of_mem _ (ih h)

theorem take_append_take {α : Type} (A B : List α) (n : Nat) :
    (A ++ B.take n).take n = (A ++ B).take n := by
  rw [List.take_append_eq_append_take, List.take_append_eq_append_take, List.take_take]
  rw [Nat.min_eq_left (Nat.sub_le n A.length)]

theorem loadSeq_append {K : Type} [DecidableEq K] (fs : K → Option Font)
    (a b : List K) (s : CacheState K) :
    loadSeq fs (a ++ b) s = loadSeq fs b (loadSeq fs a s) := by
  induction a generalizing s with
  | nil => rfl
  | cons k a ih => simp [loadSeq, ih]

/-- Loading a run of pairwise-distinct, uncached paths performs one disk
read per path and leaves the cache holding the newest 512 entries. -/
theorem loadSeq_fresh {K : Type} [DecidableEq K] (fs : K → Option Font) :
    ∀ (ks : List K) (s : CacheState K), ks.Nodup →
    (∀ k ∈ ks, ¬ k ∈ s.cache.map Prod.fst) → s.cache.length ≤ 512 →
    loadSeq fs ks s =
      ⟨((ks.map (fun k => (k, fs k))).reverse ++ s.cache).take 512, s.readLog ++ ks⟩ := by
  intro ks
  induction ks with
  | nil =>
    intro s _ _ hlen
    simp [loadSeq, List.take_of_length_le hlen]
  | cons k ks ih =>
    intro s hnd hfresh hlen
    have h0 : alookup k s.cache = none :=
      (alookup_eq_none_iff k s.cache).mpr (hfresh k (List.mem_cons_self k ks))
    have hstep : loadSeq fs (k :: ks) s =
        loadSeq fs ks ⟨((k, fs k) :: s.cache).take 512, s.readLog ++ [k]⟩ := by
      simp [loadSeq, load_font, h0]
    rw [hstep]
    have hnd' := (List.nodup_cons.mp hnd).2
    have hknotin := (List.nodup_cons.mp hnd).1
    have hfresh' : ∀ k' ∈ ks, ¬ k' ∈ (((k, fs k) :: s.cache).take 512).map Prod.fst := by
      intro k' hk' hmem
      obtain ⟨p, hp, hpk⟩ := List.mem_map.mp hmem
      have hp' : p ∈ (k, fs k) :: s.cache := List.take_subset _ _ hp
      rcases List.mem_cons.mp hp' with h | h
      · apply hknotin
        rw [h] at hpk
        simpa [← hpk] using hk'
      · exact hfresh k' (List.mem_cons_of_mem _ hk') (List.mem_map.mpr ⟨p, h, hpk⟩)
    have hlen' : (((k, fs k) :: s.cache).take 512).length ≤ 512 := by
      rw [List.length_take]
      exact Nat.min_le_left _ _
    rw [ih _ hnd' hfresh' hlen']
    congr 1
    · rw [take_append_take]
      congr 1
      simp [List.append_assoc]
    · simp

/-- Filesystem on which every parse attempt fails (every path raises in
`TTFont(...)`, so `load_font` yields `None` everywhere). -/
def fsAllFail : Nat → Option Font := fun _ => none

/-- Concrete run of 512 pairwise-distinct paths, all different from path
`0`: exactly enough distinct other paths to evict an LRU entry from the
size-512 cache. -/
def evictKeys : List Nat := (List.range 512).map (fun n => n + 1)

theorem evictKeys_length : evictKeys.length = 512 := by
  simp [evictKeys]

theorem evictKeys_nodup : evictKeys.Nodup := by
  exact (List.nodup_range 512).map (fun a b h => by omega)

theorem zero_not_mem_evictKeys : ¬ 0 ∈ evictKeys := by
  simp [evictKeys]

theorem charInFontTables_singleton (c : Nat) (ts : List CmapSubtable) :
    charInFontTables [c] ts = .ok (ts.any fun t => t.isUnicode && cmapHasCode t c) := by
  induction ts with
  | nil => rfl
  | cons t ts ih =>
    simp only [charInFontTables, List.any_cons, pyOrd]
    cases hu : t.isUnicode with
    | false => simpa [hu] using ih
    | true =>
      cases hc : cmapHasCode t c with
      | false => simpa [hu, hc] using ih
      | true => simp [hu, hc]

theorem char_in_font_singleton (c : Nat) (f : Font) :
    char_in_font [c] f = .ok (supportsB f c) := by
  cases f with
  | mk cm nm =>
    cases cm with
    | none => rfl
    | some ts => simpa [char_in_font, supportsB] using charInFontTables_singleton c ts

/-- Claim C2, counterexample: the failure cached for path `0` is NOT kept
regardless of how many other distinct paths are loaded in between.  Path
`0` fails to parse and is read once; after 512 pairwise-distinct other
paths are loaded, the LRU cache (capacity 512) has evicted it, and the next
call to `load_font 0` reads the file again: the read log of the whole run
is `0 :: evictKeys ++ [0]`, containing path `0` twice. -/
theorem C2_counterexample :
    fsAllFail 0 = none ∧ evictKeys.length = 512 ∧ evictKeys.Nodup ∧ ¬ 0 ∈ evictKeys ∧
    (loadSeq fsAllFail (0 :: (evictKeys ++ [0])) (initState Nat)).readLog
      = (0 :: evictKeys) ++ [0] ∧
    (loadSeq fsAllFail (0 :: (evictKeys ++ [0])) (initState Nat)).readLog.count 0 = 2 := by
  have hload0 : (load_font fsAllFail (initState Nat) 0).2 = ⟨[(0, none)], [0]⟩ := rfl
  have hstep1 : loadSeq fsAllFail (0 :: (evictKeys ++ [0])) (initState Nat) =
      loadSeq fsAllFail (evictKeys ++ [0]) ⟨[(0, none)], [0]⟩ := by
    rw [loadSeq_cons, hload0]
  have hfresh : ∀ k ∈ evictKeys, ¬ k ∈ ([((0 : Nat), (none : Option Font))].map Prod.fst) := by
    intro k hk hmem
    simp only [List.map_cons, List.map_nil, List.mem_singleton] at hmem
    exact zero_not_mem_evictKeys (hmem ▸ hk)
  have hs2 : loadSeq fsAllFail evictKeys ⟨[(0, none)], [0]⟩ =
      ⟨((evictKeys.map (fun k => (k, fsAllFail k))).reverse ++ [(0, none)]).take 512,
        [0] ++ evictKeys⟩ :=
    loadSeq_fresh fsAllFail evictKeys ⟨[(0, none)], [0]⟩ evictKeys_nodup hfresh (by simp)
  have hlen : ((evictKeys.map (fun k => (k, fsAllFail k))).reverse).length = 512 := by
    simp [evictKeys_length]
  have hcache : ((evictKeys.map (fun k => (k, fsAllFail k))).reverse ++ [(0, none)]).take 512
      = (evictKeys.map (fun k => (k, fsAllFail k))).reverse :=
    List.take_left' hlen
  have hfst : ((evictKeys.map (fun k => (k, fsAllFail k))).reverse).map Prod.fst
      = evictKeys.reverse := by
    rw [← List.map_reverse, List.map_map]
    rw [show (Prod.fst ∘ fun k : Nat => (k, fsAllFail k)) = id from rfl, List.map_id]
  have hnotin : alookup 0 ((evictKeys.map (fun k => (k, fsAllFail k))).reverse) = none := by
    rw [alookup_eq_none_iff, hfst, List.mem_reverse]
    exact zero_not_mem_evictKeys
  have hrun : (loadSeq fsAllFail (0 :: (evictKeys ++ [0])) (initState Nat)).readLog
      = (0 :: evictKeys) ++ [0] := by
    rw [hstep1, loadSeq_append, hs2, hcache, loadSeq_cons, loadSeq_nil]
    simp [load_font, hnotin]
  refine ⟨rfl, evictKeys_length, evictKeys_nodup, zero_not_mem_evictKeys, hrun, ?_⟩
  rw [hrun]
  rw [List.count_append, List.count_cons, List.count_singleton]
  rw [List.count_eq_zero.mpr zero_not_mem_evictKeys]
  simp

/-- Claim C2 (amended): while a cached parse failure for a path is still
present in the LRU cache, every call to `load_font` on that path returns
the cached failure without re-reading or re-parsing the file, and the
failure entry stays cached (as most-recent).  Because the cache is an LRU
cache bounded at 512 entries, the entry is not kept unconditionally: after
512 distinct other paths are loaded it is evicted and the file is re-read
(see the counterexample). -/
theorem C2_cached_failure_stable {K : Type} [DecidableEq K]
    (fs : K → Option Font) (s : CacheState K) (k : K)
    (h : alookup k s.cache = some none) :
    (load_font fs s k).1 = none ∧
    (load_font fs s k).2.readLog = s.readLog ∧
    alookup k (load_font fs s k).2.cache = some none := by
  refine ⟨?_, ?_, ?_⟩ <;> simp [load_font, h, alookup]

/-- Witness for C2's amended theorem at a concrete cached-failure state. -/
theorem C2_witness :
    alookup 7 [((7 : Nat), (none : Option Font))] = some none ∧
    (load_font fsAllFail ⟨[(7, none)], [7]⟩ 7).1 = none ∧
    (load_font fsAllFail ⟨[(7, none)], [7]⟩ 7).2.readLog = [7] := by
  have h : alookup 7 [((7 : Nat), (none : Option Font))] = some none := by
    simp [alookup]
  have hmain := C2_cached_failure_stable fsAllFail ⟨[(7, none)], [7]⟩ 7 h
  exact ⟨h, hmain.1, hmain.2.1⟩

/-- Claim C8: when the cache already holds an entry for a path, a further
call to `load_font` on that path returns exactly the cached value (the same
cached object: success and failure alike), performs no disk read, and the
entry remains cached. -/
theorem C8_warm_cache_idempotent {K : Type} [DecidableEq K]
    (fs : K → Option Font) (s : CacheState K) (k : K) (v : Option Font)
    (h : alookup k s.cache = some v) :
    (load_font fs s k).1 = v ∧
    (load_font fs s k).2.readLog = s.readLog ∧
    alookup k (load_font fs s k).2.cache = some v := by
  refine ⟨?_, ?_, ?_⟩ <;> simp [load_font, h, alookup]

/-- Witness for C8 at a concrete warm-cache state holding a parsed font. -/
theorem C8_witness :
    alookup 3 [((3 : Nat), (some ⟨none, none⟩ : Option Font))] = some (some ⟨none, none⟩) ∧
    (load_font fsAllFail ⟨[(3, some ⟨none, none⟩)], [3]⟩ 3).1 = some ⟨none, none⟩ ∧
    (load_font fsAllFail ⟨[(3, some ⟨none, none⟩)], [3]⟩ 3).2.readLog = [3] := by
  have h : alookup 3 [((3 : Nat), (some ⟨none, none⟩ : Option Font))]
      = some (some ⟨none, none⟩) := by simp [alookup]
  have hmain := C8_warm_cache_idempotent fsAllFail ⟨[(3, some ⟨none, none⟩)], [3]⟩ 3
    (some ⟨none, none⟩) h
  exact ⟨h, hmain.1, hmain.2.1⟩

/-- Claim C6: the loader is total — on a path whose parse raises (any parse
or I/O error, modelled by `fs k = none`), `load_font` returns the failure
marker `none` instead of propagating an exception, from every reachable
(cache-consistent) state, and the state stays consistent. -/
theorem C6_load_total_on_failure {K : Type} [DecidableEq K]
    (fs : K → Option Font) (s : CacheState K) (k : K)
    (hc : CacheConsistent fs s) (hf : fs k = none) :
    (load_font fs s k).1 = none ∧ CacheConsistent fs (load_font fs s k).2 := by
  cases h : alookup k s.cache with
  | none =>
    constructor
    · simp [load_font, h, hf]
    · intro p hp
      simp only [load_font, h] at hp
      have hp' : p ∈ (k, fs k) :: s.cache := List.take_subset _ _ hp
      rcases List.mem_cons.mp hp' with he | he
      · rw [he]
      · exact hc p he
  | some v =>
    have hv : v = fs k := hc (k, v) (alookup_mem h)
    constructor
    · simp [load_font, h, hv, hf]
    · intro p hp
      simp only [load_font, h] at hp
      rcases List.mem_cons.mp hp with he | he
      · rw [he]; exact hv
      · exact hc p ((List.eraseP_sublist s.cache).subset he)

/-- Witness for C6: a zero-byte (unparseable) file at the start state. -/
theorem C6_witness :
    CacheConsistent fsAllFail (initState Nat) ∧ fsAllFail 0 = none ∧
    (load_font fsAllFail (initState Nat) 0).1 = none := by
  have hc : CacheConsistent fsAllFail (initState Nat) := by
    intro p hp
    simp [initState] at hp
  exact ⟨hc, rfl, (C6_load_total_on_failure fsAllFail (initState Nat) 0 hc rfl).1⟩

theorem pyOrd_error (uc : List Nat) (h : uc.length ≠ 1) : pyOrd uc = .error () := by
  cases uc with
  | nil => rfl
  | cons a r =>
    cases r with
    | nil => exact absurd rfl h
    | cons b r2 => rfl

theorem charInFontTables_error (uc : List Nat) (hord : pyOrd uc = .error ()) :
    ∀ ts : List CmapSubtable, (∃ t ∈ ts, t.isUnicode = true) →
    charInFontTables uc ts = .error () := by
  intro ts
  induction ts with
  | nil =>
    rintro ⟨t, ht, _⟩
    cases ht
  | cons t0 ts ih =>
    rintro ⟨t, ht, hu⟩
    cases h0 : t0.isUnicode with
    | true => simp [charInFontTables, h0, hord]
    | false =>
      have hts : charInFontTables uc (t0 :: ts) = charInFontTables uc ts := by
        simp [charInFontTables, h0]
      rw [hts]
      apply ih
      rcases List.mem_cons.mp ht with he | he
      · rw [he] at hu
        rw [hu] at h0
        cases h0
      · exact ⟨t, he, hu⟩

/-- Claim C1, counterexample: the resolver answers true for a font whose
only Unicode subtable maps codepoint 65 to glyph identifier 0 — no subtable
maps the codepoint to a NON-ZERO glyph identifier, so the claimed
equivalence fails at this input (the code tests key membership only). -/
theorem C1_counterexample :
    char_in_font [65] ⟨some [⟨0, 3, [(65, 0)]⟩], none⟩ = .ok true ∧
    ∀ t ∈ (Font.mk (some [⟨0, 3, [(65, 0)]⟩]) none).cmap.getD [],
      ∀ p ∈ t.cmap, ¬(t.isUnicode = true ∧ p.1 = 65 ∧ p.2 ≠ 0) := by
  exact ⟨rfl, by decide⟩

/-- Claim C1 (amended): for every loaded font and codepoint, `char_in_font`
returns true if and only if some Unicode-capable character-mapping subtable
contains the codepoint as a key of its mapping — regardless of the glyph
identifier the codepoint is mapped to (zero included). -/
theorem C1_coverage_iff (f : Font) (c : Nat) :
    char_in_font [c] f = .ok true ↔
    ∃ t ∈ f.cmap.getD [], t.isUnicode = true ∧ ∃ p ∈ t.cmap, p.1 = c := by
  rw [char_in_font_singleton]
  constructor
  · intro h
    have hs : supportsB f c = true := by
      injection h
    simpa [supportsB, cmapHasCode, List.any_eq_true] using hs
  · intro h
    have hs : supportsB f c = true := by
      simpa [supportsB, cmapHasCode, List.any_eq_true] using h
    rw [hs]

/-- Claim C3, counterexample: a font whose Unicode subtable maps codepoint
0 makes the resolver answer true for the codepoint-zero query — the claimed
unconditional false (defensive validation) does not exist in the code. -/
theorem C3_counterexample :
    char_in_font [0] ⟨some [⟨0, 4, [(0, 1)]⟩], none⟩ = .ok true := rfl

/-- Claim C3 (amended): the resolver never raises on a single-character
query, and it returns false for codepoint zero or for a codepoint outside
the Unicode scalar range exactly when no Unicode-capable subtable maps that
codepoint: there is no defensive validation, such codepoints are looked up
like any other key (see the counterexample for a font mapping zero). -/
theorem C3_zero_out_of_range_false (f : Font) (c : Nat)
    (_hc : c = 0 ∨ 0x10FFFF < c)
    (h : ∀ t ∈ f.cmap.getD [], t.isUnicode = true → ∀ p ∈ t.cmap, p.1 ≠ c) :
    char_in_font [c] f = .ok false := by
  cases hb : supportsB f c with
  | false => rw [char_in_font_singleton, hb]
  | true =>
    exfalso
    rw [supportsB, List.any_eq_true] at hb
    obtain ⟨t, ht, hcond⟩ := hb
    rw [Bool.and_eq_true] at hcond
    obtain ⟨hu, hcode⟩ := hcond
    rw [cmapHasCode, List.any_eq_true] at hcode
    obtain ⟨p, hp, hpc⟩ := hcode
    exact h t ht hu p hp (by simpa using hpc)

/-- Witness for C3's amended theorem: codepoint zero against a font whose
only subtable does not map zero. -/
theorem C3_witness :
    char_in_font [0] ⟨some [⟨0, 4, [(65, 1)]⟩], none⟩ = .ok false :=
  C3_zero_out_of_range_false ⟨some [⟨0, 4, [(65, 1)]⟩], none⟩ 0 (Or.inl rfl) (by decide)

/-- Claim C5: a loaded font with zero character-mapping subtables (either
no cmap table at all or an empty subtable list) yields false for every
codepoint, and no error is signalled. -/
theorem C5_no_tables_false (f : Font) (c : Nat)
    (h : f.cmap = none ∨ f.cmap = some []) :
    char_in_font [c] f = .ok false := by
  rcases h with h | h <;> simp [char_in_font, h, charInFontTables]

/-- Witness for C5 at both zero-table shapes. -/
theorem C5_witness :
    char_in_font [100] ⟨none, none⟩ = .ok false ∧
    char_in_font [100] ⟨some [], none⟩ = .ok false :=
  ⟨C5_no_tables_false ⟨none, none⟩ 100 (Or.inl rfl),
   C5_no_tables_false ⟨some [], none⟩ 100 (Or.inr rfl)⟩

/-- Claim C7: the resolver's boolean answer is invariant under permutation
of the font's subtable list — it is an existence check over the set of
Unicode-capable subtables, not a priority lookup. -/
theorem C7_order_independent (c : Nat) (nm : Option (List NamingRecord))
    (ts ts' : List CmapSubtable) (h : ts.Perm ts') :
    char_in_font [c] ⟨some ts, nm⟩ = char_in_font [c] ⟨some ts', nm⟩ := by
  rw [char_in_font_singleton, char_in_font_singleton]
  have hany : (ts.any fun t => t.isUnicode && cmapHasCode t c)
      = (ts'.any fun t => t.isUnicode && cmapHasCode t c) := by
    cases hb : ts'.any fun t => t.isUnicode && cmapHasCode t c with
    | true =>
      rw [List.any_eq_true] at hb ⊢
      obtain ⟨t, ht, hcond⟩ := hb
      exact ⟨t, h.mem_iff.mpr ht, hcond⟩
    | false =>
      rw [List.any_eq_false] at hb ⊢
      intro t ht
      exact hb t (h.mem_iff.mp ht)
  simp [supportsB, hany]

/-- Witness for C7 on a concrete two-subtable transposition. -/
theorem C7_witness :
    char_in_font [65] ⟨some [⟨0, 3, [(65, 1)]⟩, ⟨1, 0, []⟩], none⟩
      = char_in_font [65] ⟨some [⟨1, 0, []⟩, ⟨0, 3, [(65, 1)]⟩], none⟩ :=
  C7_order_independent 65 none _ _ (List.Perm.swap _ _ _)

/-- Claim C10: on a string argument whose length is not exactly one, the
resolver raises (the `ord` TypeError propagates, modelled as `.error ()`)
as soon as the font has at least one Unicode-capable subtable, instead of
returning a boolean: its totality silently assumes single characters. -/
theorem C10_multichar_raises (uc : List Nat) (f : Font) (ts : List CmapSubtable)
    (hlen : uc.length ≠ 1) (hcm : f.cmap = some ts)
    (hex : ∃ t ∈ ts, t.isUnicode = true) :
    char_in_font uc f = .error () := by
  have hred : char_in_font uc f = charInFontTables uc ts := by
    simp [char_in_font, hcm]
  rw [hred]
  exact charInFontTables_error uc (pyOrd_error uc hlen) ts hex

/-- Witness for C10: the two-character string "ab" against a font with a
Windows Unicode BMP subtable. -/
theorem C10_witness :
    char_in_font [97, 98] ⟨some [⟨3, 1, []⟩], none⟩ = .error () :=
  C10_multichar_raises [97, 98] ⟨some [⟨3, 1, []⟩], none⟩ [⟨3, 1, []⟩]
    (by decide) rfl ⟨⟨3, 1, []⟩, by decide, by decide⟩

/-- Claim C4: `get_font_name` equals the best-effort lookup the spec
describes — the decoded text of the first naming record with name
identifier 1 or 4, Windows platform (3) and Unicode BMP encoding (1),
falling back to exactly "Unknown font" when the naming table is absent, no
record matches, or decoding that record raises; being a total function it
never raises. -/
theorem C4_font_name_spec (f : Font) :
    get_font_name f =
      (((f.name.getD []).find? matchNameRecord).bind NamingRecord.text).getD "Unknown font" := by
  cases f with
  | mk cm nm =>
    cases nm with
    | none => rfl
    | some rs =>
      show getNameFromRecords rs
        = ((rs.find? matchNameRecord).bind NamingRecord.text).getD "Unknown font"
      induction rs with
      | nil => rfl
      | cons r rs ih =>
        cases hm : matchNameRecord r with
        | false =>
          rw [List.find?_cons_of_neg _ (by simp [hm])]
          simpa [getNameFromRecords, hm] using ih
        | true =>
          rw [List.find?_cons_of_pos _ hm]
          cases ht : r.text with
          | none => simp [getNameFromRecords, hm, ht]
          | some s => simp [getNameFromRecords, hm, ht]

/-- Embedding of `find_fonts_for_char(char, font_paths)`: loads each path
through the cache, and for each successfully loaded font that covers the
character records `(get_font_name(font), fontpath)`.  An exception raised
by `char_in_font` (non-single-character argument) propagates.  A `TTFont`
instance is treated as truthy, a cached `None` as falsy. -/
def find_fonts_for_char {K : Type} [DecidableEq K] (fs : K → Option Font) (uc : List Nat) :
    List K → CacheState K → Except Unit (List (String × K) × CacheState K)
  | [], s => .ok ([], s)
  | p :: ps, s =>
    match load_font fs s p with
    | (none, s1) => find_fonts_for_char fs uc ps s1
    | (some f, s1) =>
      match char_in_font uc f with
      | .error e => .error e
      | .ok true =>
        match find_fonts_for_char fs uc ps s1 with
        | .error e => .error e
        | .ok (rest, s2) => .ok ((get_font_name f, p) :: rest, s2)
      | .ok false => find_fonts_for_char fs uc ps s1

/-- The loop of `main` over the argument characters, threading the shared
load cache; any exception from a per-character search propagates. -/
def runChars {K : Type} [DecidableEq K] (fs : K → Option Font) (paths : List K) :
    List (List Nat) → CacheState K →
    Except Unit (List (List Nat × List (String × K)) × CacheState K)
  | [], s => .ok ([], s)
  | c :: cs, s =>
    match find_fonts_for_char fs c paths s with
    | .error e => .error e
    | .ok (res, s1) =>
      match runChars fs paths cs s1 with
      | .error e => .error e
      | .ok (rest, s2) => .ok ((c, res) :: rest, s2)

/-- Observable outcome of one program invocation: whether the usage message
was printed, the process exit status, whether font discovery and scanning
ran, and the per-character results. -/
structure MainResult (K : Type) where
  printedUsage : Bool
  exitCode : Nat
  scanned : Bool
  results : List (List Nat × List (String × K))

/-- Embedding of `main()`: with no arguments it prints the usage text and
calls `sys.exit(1)` before any font discovery; otherwise it discovers the
font paths (supplied by the filesystem collaborator) and searches them for
each argument, finishing with exit status 0 unless an exception escapes. -/
def main {K : Type} [DecidableEq K] (fs : K → Option Font) (paths : List K)
    (argv : List (List Nat)) : Except Unit (MainResult K) :=
  if argv.isEmpty then
    .ok ⟨true, 1, false, []⟩
  else
    match runChars fs paths argv (initState K) with
    | .error e => .error e
    | .ok (res, _) => .ok ⟨false, 0, true, res⟩

theorem find_fonts_for_char_singleton_ok {K : Type} [DecidableEq K]
    (fs : K → Option Font) (c : Nat) :
    ∀ (ps : List K) (s : CacheState K),
    ∃ out, find_fonts_for_char fs [c] ps s = .ok out := by
  intro ps
  induction ps with
  | nil => exact fun s => ⟨([], s), rfl⟩
  | cons p ps ih =>
    intro s
    rcases hl : load_font fs s p with ⟨fo, s1⟩
    cases fo with
    | none =>
      obtain ⟨out, hout⟩ := ih s1
      exact ⟨out, by simp [find_fonts_for_char, hl, hout]⟩
    | some f =>
      have hcf := char_in_font_singleton c f
      cases hb : supportsB f c with
      | false =>
        obtain ⟨out, hout⟩ := ih s1
        refine ⟨out, ?_⟩
        simp [find_fonts_for_char, hl, hcf, hb, hout]
      | true =>
        obtain ⟨⟨rest, s2⟩, hout⟩ := ih s1
        refine ⟨((get_font_name f, p) :: rest, s2), ?_⟩
        simp [find_fonts_for_char, hl, hcf, hb, hout]

theorem runChars_singleton_ok {K : Type} [DecidableEq K]
    (fs : K → Option Font) (paths : List K) :
    ∀ (cs : List (List Nat)), (∀ a ∈ cs, ∃ c, a = [c]) →
    ∀ s : CacheState K, ∃ out, runChars fs paths cs s = .ok out := by
  intro cs
  induction cs with
  | nil => exact fun _ s => ⟨([], s), rfl⟩
  | cons a cs ih =>
    intro hsing s
    obtain ⟨c, hc⟩ := hsing a (List.mem_cons_self a cs)
    subst hc
    obtain ⟨⟨res, s1⟩, hres⟩ := find_fonts_for_char_singleton_ok fs c paths s
    obtain ⟨⟨rest, s2⟩, hrest⟩ := ih (fun b hb => hsing b (List.mem_cons_of_mem _ hb)) s1
    exact ⟨(([c], res) :: rest, s2), by simp [runChars, hres, hrest]⟩

/-- Claim C9: invoked with no arguments, the program prints the usage
message, exits with status 1 (non-zero), and performs no font discovery or
scanning; and for invocations whose arguments are genuine characters
(single codepoints) this is the only fatal, user-visible failure path —
every non-empty character invocation completes normally with exit status 0
(any non-character argument would instead crash the scan, see C10). -/
theorem C9_usage_only_fatal {K : Type} [DecidableEq K] (fs : K → Option Font)
    (paths : List K) (argv : List (List Nat))
    (hne : argv ≠ []) (hchars : ∀ a ∈ argv, ∃ c, a = [c]) :
    main fs paths [] = .ok ⟨true, 1, false, []⟩ ∧
    ∃ res, main fs paths argv = .ok ⟨false, 0, true, res⟩ := by
  constructor
  · rfl
  · obtain ⟨⟨res, s⟩, hrun⟩ := runChars_singleton_ok fs paths argv hchars (initState K)
    refine ⟨res, ?_⟩
    have hargv : argv.isEmpty = false := by
      cases argv with
      | nil => exact absurd rfl hne
      | cons a r => rfl
    simp [main, hargv, hrun]

/-- Witness for C9: no-argument invocation and a one-character invocation
against an empty font set. -/
theorem C9_witness :
    main fsAllFail ([] : List Nat) [] = .ok ⟨true, 1, false, []⟩ ∧
    ∃ res, main fsAllFail ([] : List Nat) [[97]] = .ok ⟨false, 0, true, res⟩ :=
  C9_usage_only_fatal fsAllFail [] [[97]] (by simp)
    (by
      rintro a ha
      rw [List.mem_singleton] at ha
      exact ⟨97, ha⟩)

end Char2Fonts
